import Mathlib

/-!
Verification of the reading-evaluation core (text alignment and scoring engine).

The development shallowly embeds the Python services:
  * `app/services/evaluation_service.py` — metric calculation (accuracy,
    completeness, fluency, speed categorization, suspicious flag, remarks);
  * `app/services/text_service.py` — normalization, tokenization, greedy
    exact/fuzzy alignment, order accuracy via LCS, and the module singleton.

Python floats are modelled as rationals (ℚ), Python ints as ℤ or ℕ, strings
as Lean `String` / `List Char`.  Fallible operations (Python's
`list.pop` which raises `IndexError`) return `Option`.  The external
similarity scorer `rapidfuzz.fuzz.ratio` is not part of the repository; the
alignment is therefore parametrised by an arbitrary score function, and a
spec-modelled instance is provided where a concrete scorer is needed.
-/

namespace ReadingModel

/-! ## Evaluation service (`evaluation_service.py`) -/

/-- State of `EvaluationService.__init__`: the two configuration values. -/
structure EvaluationService where
  suspicious_wpm_threshold : ℚ
  min_completeness_for_valid : ℚ
deriving DecidableEq, Repr

/-- Source default construction `EvaluationService()` (thresholds 250 and 20). -/
def EvaluationService.default : EvaluationService := ⟨250, 20⟩

/-- Embeds `calculate_accuracy`: guard `total_student_words == 0`, else
`min(100.0, matched / total * 100)`. -/
def calculate_accuracy (matched_words total_student_words : ℤ) : ℚ :=
  if total_student_words = 0 then 0
  else min 100 ((matched_words : ℚ) / (total_student_words : ℚ) * 100)

/-- Embeds `calculate_completeness`: guard `total_reference_words == 0`, else
`min(100.0, matched / total * 100)`. -/
def calculate_completeness (matched_words total_reference_words : ℤ) : ℚ :=
  if total_reference_words = 0 then 0
  else min 100 ((matched_words : ℚ) / (total_reference_words : ℚ) * 100)

/-- Embeds `calculate_fluency`: guard `audio_duration <= 0`, else
`word_count / audio_duration * 60`. -/
def calculate_fluency (word_count : ℤ) (audio_duration : ℚ) : ℚ :=
  if audio_duration ≤ 0 then 0
  else (word_count : ℚ) / audio_duration * 60

/-- Embeds `detect_suspicious_reading`: `fluency_wpm > self.suspicious_wpm_threshold`. -/
def detect_suspicious_reading (svc : EvaluationService) (fluency_wpm : ℚ) : Bool :=
  decide (fluency_wpm > svc.suspicious_wpm_threshold)

/-- Embeds the class attribute `WPM_RANGES`, an insertion-ordered dict of
half-open ranges; `float('inf')` is modelled as `none`. -/
def WPM_RANGES : List (String × ℚ × Option ℚ) :=
  [("very_slow", 0, some 60),
   ("slow", 60, some 100),
   ("normal", 100, some 160),
   ("fast", 160, some 200),
   ("very_fast", 200, some 250),
   ("suspicious", 250, none)]

/-- Tests `low <= fluency_wpm < high` for one `WPM_RANGES` entry; a `none`
upper bound is `float('inf')`, and every rational is `< inf`. -/
def wpmRangeHit (fluency_wpm : ℚ) (e : String × ℚ × Option ℚ) : Bool :=
  decide (e.2.1 ≤ fluency_wpm) &&
    (match e.2.2 with
     | some high => decide (fluency_wpm < high)
     | none => true)

/-- Embeds `categorize_speed`: iterate `WPM_RANGES` in insertion order and
return the first category whose range contains the value, else `"unknown"`. -/
def categorize_speed (fluency_wpm : ℚ) : String :=
  match WPM_RANGES.find? (wpmRangeHit fluency_wpm) with
  | some e => e.1
  | none => "unknown"

/-- Embeds the class attribute `ACCURACY_THRESHOLDS`. -/
def ACCURACY_THRESHOLDS_excellent : ℚ := 90
/-- Threshold `good` of `ACCURACY_THRESHOLDS`. -/
def ACCURACY_THRESHOLDS_good : ℚ := 75
/-- Threshold `average` of `ACCURACY_THRESHOLDS`. -/
def ACCURACY_THRESHOLDS_average : ℚ := 60
/-- Threshold `needs_improvement` of `ACCURACY_THRESHOLDS`. -/
def ACCURACY_THRESHOLDS_needs_improvement : ℚ := 40

/-- Embeds `generate_remarks`: collects remark strings and joins with a space. -/
def generate_remarks (accuracy completeness fluency_wpm : ℚ)
    (is_suspicious : Bool) : String :=
  let parts₀ : List String :=
    if is_suspicious then
      ["⚠️ Warning: Reading speed is unusually fast. This may indicate the audio was played back at increased speed."]
    else []
  let parts₁ : List String := parts₀ ++
    (if accuracy ≥ ACCURACY_THRESHOLDS_excellent then
      ["Excellent accuracy! Words are pronounced correctly."]
     else if accuracy ≥ ACCURACY_THRESHOLDS_good then
      ["Good reading performance."]
     else if accuracy ≥ ACCURACY_THRESHOLDS_average then
      ["Average performance. Practice pronunciation."]
     else if accuracy ≥ ACCURACY_THRESHOLDS_needs_improvement then
      ["Needs improvement. Focus on reading clearly."]
     else
      ["Significant improvement needed. Practice reading aloud."])
  let parts₂ : List String := parts₁ ++
    (if completeness < 50 then ["Only partial text was read."]
     else if completeness < 80 then ["Most of the text was covered."]
     else ["Good coverage of the reference text."])
  let speed_category := categorize_speed fluency_wpm
  let parts₃ : List String := parts₂ ++
    (if speed_category = "very_slow" then
      ["Reading pace is slow. Try to read more fluently."]
     else if speed_category = "slow" then ["Reading pace is slightly slow."]
     else if speed_category = "normal" then ["Reading pace is appropriate."]
     else if speed_category = "fast" then ["Good fluent reading pace!"]
     else if speed_category = "very_fast" then
      ["Very fast reading. Ensure clarity isn't sacrificed for speed."]
     else [])
  String.intercalate " " parts₃

/-- Models the `comparison_result` dict argument of `evaluate`: each key the
method reads may be present or absent (`dict.get` with a default). -/
structure ComparisonDict where
  matched_words : Option ℤ
  total_student_words : Option ℤ
  total_reference_words : Option ℤ
  exact_matches : Option (List String)
  fuzzy_matches : Option (List (String × Option String × ℚ))
deriving DecidableEq, Repr

/-- Models the empty dict `{}`. -/
def ComparisonDict.empty : ComparisonDict := ⟨none, none, none, none, none⟩

/-- Breakdown sub-dict of the `evaluate` result. -/
structure EvalBreakdown where
  matched_words : ℤ
  total_student_words : ℤ
  total_reference_words : ℤ
  exact_match_count : ℕ
  fuzzy_match_count : ℕ
  reading_speed_category : String
deriving DecidableEq, Repr

/-- Result dict of `evaluate`. -/
structure EvalResult where
  accuracy : ℚ
  completeness : ℚ
  fluency_wpm : ℚ
  remarks : String
  suspicious : Bool
  breakdown : EvalBreakdown
deriving DecidableEq, Repr

/-- Embeds `EvaluationService.evaluate`: extracts comparison data with
`dict.get` defaults (`matched_words` → 0, `total_student_words` → 0,
`total_reference_words` → 1), computes the metrics and assembles the report. -/
def evaluate (svc : EvaluationService) (comparison_result : ComparisonDict)
    (audio_duration : ℚ) (word_count : ℤ) : EvalResult :=
  let matched_words := comparison_result.matched_words.getD 0
  let total_student_words := comparison_result.total_student_words.getD 0
  let total_reference_words := comparison_result.total_reference_words.getD 1
  let accuracy := calculate_accuracy matched_words total_student_words
  let completeness := calculate_completeness matched_words total_reference_words
  let fluency_wpm := calculate_fluency word_count audio_duration
  let is_suspicious := detect_suspicious_reading svc fluency_wpm
  let remarks := generate_remarks accuracy completeness fluency_wpm is_suspicious
  { accuracy := accuracy
    completeness := completeness
    fluency_wpm := fluency_wpm
    remarks := remarks
    suspicious := is_suspicious
    breakdown :=
      { matched_words := matched_words
        total_student_words := total_student_words
        total_reference_words := total_reference_words
        exact_match_count := (comparison_result.exact_matches.getD []).length
        fuzzy_match_count := (comparison_result.fuzzy_matches.getD []).length
        reading_speed_category := categorize_speed fluency_wpm } }

/-! ## Text service singleton (`text_service.py`, module level) -/

/-- State of `TextService.__init__`: the configured fuzzy threshold (the two
compiled regex patterns carry no state beyond their fixed definitions). -/
structure TextService where
  fuzzy_threshold : ℤ
deriving DecidableEq, Repr

/-- Embeds the module-level accessor `get_text_service` together with the
global `_text_service_instance`: the global is passed in and returned as
explicit state (`none` models the initial `None`). -/
def get_text_service (fuzzy_threshold : ℤ) :
    Option TextService → TextService × Option TextService
  | none =>
      let s : TextService := ⟨fuzzy_threshold⟩
      (s, some s)
  | some s => (s, some s)

/-! ## Alignment (`TextService.compare_texts`)

The similarity scorer `fuzz.ratio` comes from the external `rapidfuzz`
library, so the alignment is parametrised by an arbitrary score function
`String → String → ℚ`; every theorem below quantifies over it. -/

/-- One entry of the `match_details` list built by `compare_texts`. -/
structure MatchDetail where
  student_word : String
  matched : Bool
  match_type : Option String
  reference_word : Option String
  score : ℚ
deriving DecidableEq, Repr

/-- Result dict of `compare_texts`. -/
structure CompareResult where
  matched_words : ℕ
  total_student_words : ℕ
  total_reference_words : ℕ
  exact_matches : List String
  fuzzy_matches : List (String × Option String × ℚ)
  unmatched_student : List String
  unmatched_reference : List String
  match_details : List MatchDetail
deriving DecidableEq, Repr

/-- Embeds the best-fuzzy-match scan: fold over the remaining reference pool
carrying `(best_match, best_score, best_idx)`, updating on a strict `>`. -/
def findBestAux (score : String → String → ℚ) (student_word : String) :
    List String → ℕ → Option String × ℚ × ℤ → Option String × ℚ × ℤ
  | [], _, best => best
  | ref_word :: rest, idx, best =>
      let s := score student_word ref_word
      findBestAux score student_word rest (idx + 1)
        (if s > best.2.1 then (some ref_word, s, (idx : ℤ)) else best)

/-- Embeds the loop initialisation `best_match = None; best_score = 0;
best_idx = -1` followed by the scan. -/
def findBest (score : String → String → ℚ) (student_word : String)
    (pool : List String) : Option String × ℚ × ℤ :=
  findBestAux score student_word pool 0 (none, 0, -1)

/-- Embeds Python `list.pop(i)`: a negative index counts from the end;
an out-of-range index (in particular any index on an empty list) raises
`IndexError`, modelled as `none`. -/
def pyPop (l : List String) (i : ℤ) : Option (String × List String) :=
  let j : ℤ := if i < 0 then i + l.length else i
  if 0 ≤ j ∧ j < l.length then
    some (l.getD j.toNat "", l.eraseIdx j.toNat)
  else none

/-- Outcome of processing one student word against the current pool. -/
inductive StepResult where
  | exact (newPool : List String)
  | fuzzy (ref : Option String) (sc : ℚ) (newPool : List String)
  | nomatch
deriving DecidableEq, Repr

/-- Embeds the body of the per-student-word loop of `compare_texts`: exact
membership test (removing the first occurrence) first, then the fuzzy
branch guarded by `use_fuzzy`; `none` models the `IndexError` from
`pop(-1)` on an empty pool (reachable only when `0 ≥ fuzzy_threshold`). -/
def compareStep (score : String → String → ℚ) (fuzzy_threshold : ℚ)
    (use_fuzzy : Bool) (pool : List String) (student_word : String) :
    Option StepResult :=
  if student_word ∈ pool then
    some (.exact (pool.erase student_word))
  else if use_fuzzy then
    if (findBest score student_word pool).2.1 ≥ fuzzy_threshold then
      match pyPop pool (findBest score student_word pool).2.2 with
      | some p =>
          some (.fuzzy (findBest score student_word pool).1
            (findBest score student_word pool).2.1 p.2)
      | none => none
    else some .nomatch
  else some .nomatch

/-- Mutable loop state of `compare_texts`. -/
structure LoopState where
  matched_words : ℕ
  exact_matches : List String
  fuzzy_matches : List (String × Option String × ℚ)
  unmatched_student : List String
  match_details : List MatchDetail
  reference_remaining : List String
deriving DecidableEq, Repr

/-- Applies one `StepResult` to the loop state, mirroring the updates and
`match_details.append` of the source loop body. -/
def applyStep (student_word : String) (r : StepResult) (st : LoopState) :
    LoopState :=
  match r with
  | .exact newPool =>
      { st with
        matched_words := st.matched_words + 1
        exact_matches := st.exact_matches ++ [student_word]
        match_details := st.match_details ++
          [⟨student_word, true, some "exact", some student_word, 100⟩]
        reference_remaining := newPool }
  | .fuzzy ref sc newPool =>
      { st with
        matched_words := st.matched_words + 1
        fuzzy_matches := st.fuzzy_matches ++ [(student_word, ref, sc)]
        match_details := st.match_details ++
          [⟨student_word, true, some "fuzzy", ref, sc⟩]
        reference_remaining := newPool }
  | .nomatch =>
      { st with
        unmatched_student := st.unmatched_student ++ [student_word]
        match_details := st.match_details ++
          [⟨student_word, false, none, none, 0⟩] }

/-- The `for student_word in student_tokens` loop of `compare_texts`. -/
def compareAux (score : String → String → ℚ) (fuzzy_threshold : ℚ)
    (use_fuzzy : Bool) : List String → LoopState → Option LoopState
  | [], st => some st
  | w :: ws, st =>
      match compareStep score fuzzy_threshold use_fuzzy st.reference_remaining w with
      | none => none
      | some r => compareAux score fuzzy_threshold use_fuzzy ws (applyStep w r st)

/-- Embeds `compare_texts` on already-tokenized inputs (the function's first
step is to tokenize both argument strings; everything after operates on the
two token lists). -/
def compareTokens (score : String → String → ℚ) (fuzzy_threshold : ℚ)
    (use_fuzzy : Bool) (student_tokens reference_tokens : List String) :
    Option CompareResult :=
  (compareAux score fuzzy_threshold use_fuzzy student_tokens
      ⟨0, [], [], [], [], reference_tokens⟩).map fun st =>
    { matched_words := st.matched_words
      total_student_words := student_tokens.length
      total_reference_words := reference_tokens.length
      exact_matches := st.exact_matches
      fuzzy_matches := st.fuzzy_matches
      unmatched_student := st.unmatched_student
      unmatched_reference := st.reference_remaining
      match_details := st.match_details }

/-! ## Normalization and tokenization (`TextService.normalize` / `tokenize`)

Text is embedded as `List Char`.  The character classes are those the source
uses: `string.punctuation` (ASCII codes 33–47, 58–64, 91–96, 123–126) with the
apostrophe (39) removed, the regex class `\s` and `str.lower`, all taken at
their ASCII meaning. -/

/-- Whitespace characters matched by the `\s+` pattern and stripped by
`str.strip` (space, tab, newline, vertical tab, form feed, carriage return). -/
def isSpaceCh (c : Char) : Bool :=
  c == ' ' || decide (c.toNat = 9) || decide (c.toNat = 10) ||
    decide (c.toNat = 11) || decide (c.toNat = 12) || decide (c.toNat = 13)

/-- Membership in the compiled `punctuation_pattern` character class:
`string.punctuation` minus the apostrophe (code 39). -/
def isPunctCh (c : Char) : Bool :=
  let n := c.toNat
  (decide (33 ≤ n) && decide (n ≤ 47) && decide (n ≠ 39)) ||
    (decide (58 ≤ n) && decide (n ≤ 64)) ||
    (decide (91 ≤ n) && decide (n ≤ 96)) ||
    (decide (123 ≤ n) && decide (n ≤ 126))

/-- Per-character `str.lower`: maps `A`–`Z` (codes 65–90) to `a`–`z`. -/
def lowerCh (c : Char) : Char :=
  if 65 ≤ c.toNat ∧ c.toNat ≤ 90 then Char.ofNat (c.toNat + 32) else c

/-- The substitution `punctuation_pattern.sub(' ', ·)` acting on one
character: each punctuation character becomes a space. -/
def punctToSpace (c : Char) : Char :=
  if isPunctCh c then ' ' else c

/-- The substitution `whitespace_pattern.sub(' ', ·)`: every maximal run of
whitespace characters becomes a single space.  The boolean records whether
the scan is inside a whitespace run. -/
def collapseAux (inRun : Bool) : List Char → List Char
  | [] => []
  | c :: cs =>
      if isSpaceCh c then
        if inRun then collapseAux true cs else ' ' :: collapseAux true cs
      else c :: collapseAux false cs

/-- Replaces each maximal whitespace run with one space. -/
def collapseWS (l : List Char) : List Char := collapseAux false l

/-- Removes trailing whitespace (the right half of `str.strip`). -/
def stripEnd (l : List Char) : List Char :=
  (l.reverse.dropWhile isSpaceCh).reverse

/-- Embeds `str.strip`: drop leading and trailing whitespace. -/
def stripWS (l : List Char) : List Char :=
  stripEnd (l.dropWhile isSpaceCh)

/-- Embeds `TextService.normalize`: early return on empty text, lowercase,
punctuation → space, whitespace collapse, strip. -/
def normalize (text : List Char) : List Char :=
  if text = [] then []
  else stripWS (collapseWS ((text.map lowerCh).map punctToSpace))

/-- Embeds `str.split()` (no separator): maximal non-whitespace runs, no
empty fragments; the accumulator holds the current word reversed. -/
def splitWsAux : List Char → List Char → List String
  | [], acc => if acc = [] then [] else [String.mk acc.reverse]
  | c :: cs, acc =>
      if isSpaceCh c then
        if acc = [] then splitWsAux cs []
        else String.mk acc.reverse :: splitWsAux cs []
      else splitWsAux cs (c :: acc)

/-- Embeds `TextService.tokenize`: early return on empty text, split on
whitespace, filter out empty strings. -/
def tokenize (text : List Char) : List String :=
  if text = [] then []
  else (splitWsAux text []).filter (fun w => w ≠ "")

/-- Embeds `TextService.compare_texts` on raw strings: tokenize both texts,
then run the alignment loop. -/
def compare_texts (score : String → String → ℚ) (fuzzy_threshold : ℚ)
    (use_fuzzy : Bool) (student_text reference_text : List Char) :
    Option CompareResult :=
  compareTokens score fuzzy_threshold use_fuzzy
    (tokenize student_text) (tokenize reference_text)

/-! ## Order accuracy (`get_word_order_accuracy` and the LCS table) -/

/-- Inner loop (`for j in range(1, n+1)`) of `_longest_common_subsequence`:
computes the entries `dp[i][1..n]` of one row.  `prev` walks along row
`i-1` starting at entry `j-1`, and `left` is the entry `dp[i][j-1]` just
written. -/
def lcsRowGo (a : String) : List String → List ℕ → ℕ → List ℕ
  | [], _, _ => []
  | b :: bs, prev, left =>
      match prev with
      | [] => []
      | pjm1 :: prest =>
          let c := if a = b then pjm1 + 1 else max (prest.headD 0) left
          c :: lcsRowGo a bs prest c

/-- One iteration of the outer loop: row `i` of the table from row `i-1`
(entry `dp[i][0]` is the zero the table was initialised with). -/
def lcsRowFn (a : String) (seq2 : List String) (prev : List ℕ) : List ℕ :=
  0 :: lcsRowGo a seq2 prev 0

/-- Embeds `TextService._longest_common_subsequence`: fill the
`(m+1) × (n+1)` table row by row starting from the all-zero row, and return
`dp[m][n]`, the last entry of the last row. -/
def longest_common_subsequence (seq1 seq2 : List String) : ℕ :=
  (seq1.foldl (fun prev a => lcsRowFn a seq2 prev)
      (List.replicate (seq2.length + 1) 0)).getLastD 0

/-- Embeds `TextService.get_word_order_accuracy`: zero when either token list
is empty, else `lcs_length / min(len, len) * 100`. -/
def get_word_order_accuracy (student_tokens reference_tokens : List String) : ℚ :=
  if student_tokens = [] ∨ reference_tokens = [] then 0
  else
    let lcs_length := longest_common_subsequence student_tokens reference_tokens
    let max_possible := min student_tokens.length reference_tokens.length
    if max_possible = 0 then 0
    else (lcs_length : ℚ) / (max_possible : ℚ) * 100

/-- The textbook longest-common-subsequence recurrence, used as the
specification the DP table is verified against (and, at `Char`, as the basis
of the spec-modelled similarity scorer). -/
def lcsLen {α : Type} [DecidableEq α] : List α → List α → ℕ
  | [], _ => 0
  | _, [] => 0
  | a :: as, b :: bs =>
      if a = b then lcsLen as bs + 1
      else max (lcsLen as (b :: bs)) (lcsLen (a :: as) bs)
termination_by l₁ l₂ => l₁.length + l₂.length
decreasing_by all_goals simp_arith

/-- Modelled from the spec: the similarity scorer used by `compare_texts` is
`rapidfuzz.fuzz.ratio`, external to this repository; the spec describes it as
a "symmetric character-level ratio (0–100 ...; e.g. normalized edit
distance)".  This is the normalized indel similarity
`200·lcs(a,b)/(|a|+|b|)` (with two empty strings scoring 100), which is the
documented value of `fuzz.ratio`. -/
def ratioScore (a b : String) : ℚ :=
  if a.data.length + b.data.length = 0 then 100
  else 200 * (lcsLen a.data b.data : ℚ) / ((a.data.length + b.data.length : ℕ) : ℚ)

/-- The apostrophe character (code 39), the one punctuation mark `normalize`
preserves. -/
def apostrophe : Char := Char.ofNat 39

/-- Adjacent-character relation used to state that a string has no two
consecutive whitespace characters. -/
def spacedOK (a b : Char) : Prop :=
  ¬(isSpaceCh a = true ∧ isSpaceCh b = true)

/-! ## Theorems -/

/-- C3: `calculate_accuracy` returns 0 when `total_student_words = 0`,
`calculate_completeness` returns 0 when `total_reference_words = 0`, and
`calculate_fluency` returns 0 for every `duration ≤ 0`, in particular at 0
and -1.  The three functions are total Lean functions over ℤ/ℚ, so they
return a value and never raise: the divisions are explicitly guarded. -/
theorem metric_zero_guards :
    (∀ m : ℤ, calculate_accuracy m 0 = 0) ∧
    (∀ m : ℤ, calculate_completeness m 0 = 0) ∧
    (∀ (w : ℤ) (d : ℚ), d ≤ 0 → calculate_fluency w d = 0) ∧
    (∀ w : ℤ, calculate_fluency w 0 = 0 ∧ calculate_fluency w (-1) = 0) := by
  refine ⟨fun m => ?_, fun m => ?_, fun w d hd => ?_, fun w => ⟨?_, ?_⟩⟩
  · simp [calculate_accuracy]
  · simp [calculate_completeness]
  · simp [calculate_fluency, hd]
  · simp [calculate_fluency]
  · norm_num [calculate_fluency]

/-- Witness for C3: the zero- and negative-duration cases at word count 120. -/
theorem metric_zero_guards_witness :
    ((-1 : ℚ) ≤ 0 ∧ calculate_fluency 120 (-1) = 0) ∧ calculate_fluency 120 0 = 0 :=
  ⟨⟨by norm_num, metric_zero_guards.2.2.1 120 (-1) (by norm_num)⟩,
    (metric_zero_guards.2.2.2 120).1⟩

/-- C7: `categorize_speed` realizes the ordered half-open interval table
very_slow [0,60), slow [60,100), normal [100,160), fast [160,200),
very_fast [200,250), suspicious [250,∞), first match wins, and returns
"unknown" when no interval matches (which happens exactly for negative
values). -/
theorem categorize_speed_table (x : ℚ) :
    categorize_speed x =
      if x < 0 then "unknown"
      else if x < 60 then "very_slow"
      else if x < 100 then "slow"
      else if x < 160 then "normal"
      else if x < 200 then "fast"
      else if x < 250 then "very_fast"
      else "suspicious" := by
  by_cases h0 : x < 0
  · have n1 : ¬(0 : ℚ) ≤ x := by linarith
    have n2 : ¬(60 : ℚ) ≤ x := by linarith
    have n3 : ¬(100 : ℚ) ≤ x := by linarith
    have n4 : ¬(160 : ℚ) ≤ x := by linarith
    have n5 : ¬(200 : ℚ) ≤ x := by linarith
    have n6 : ¬(250 : ℚ) ≤ x := by linarith
    simp [categorize_speed, WPM_RANGES, wpmRangeHit, List.find?,
      decide_eq_false n1, decide_eq_false n2, decide_eq_false n3,
      decide_eq_false n4, decide_eq_false n5, decide_eq_false n6, h0]
  · by_cases h1 : x < 60
    · have p1 : (0 : ℚ) ≤ x := by linarith
      simp [categorize_speed, WPM_RANGES, wpmRangeHit, List.find?,
        decide_eq_true p1, decide_eq_true h1, h0, h1]
    · by_cases h2 : x < 100
      · have p1 : (0 : ℚ) ≤ x := by linarith
        have p2 : (60 : ℚ) ≤ x := by linarith
        simp [categorize_speed, WPM_RANGES, wpmRangeHit, List.find?,
          decide_eq_true p1, decide_eq_true p2, decide_eq_false h1,
          decide_eq_true h2, h0, h1, h2]
      · by_cases h3 : x < 160
        · have p1 : (0 : ℚ) ≤ x := by linarith
          have p2 : (60 : ℚ) ≤ x := by linarith
          have p3 : (100 : ℚ) ≤ x := by linarith
          simp [categorize_speed, WPM_RANGES, wpmRangeHit, List.find?,
            decide_eq_true p1, decide_eq_true p2, decide_eq_true p3,
            decide_eq_false h1, decide_eq_false h2, decide_eq_true h3,
            h0, h1, h2, h3]
        · by_cases h4 : x < 200
          · have p1 : (0 : ℚ) ≤ x := by linarith
            have p2 : (60 : ℚ) ≤ x := by linarith
            have p3 : (100 : ℚ) ≤ x := by linarith
            have p4 : (160 : ℚ) ≤ x := by linarith
            simp [categorize_speed, WPM_RANGES, wpmRangeHit, List.find?,
              decide_eq_true p1, decide_eq_true p2, decide_eq_true p3,
              decide_eq_true p4, decide_eq_false h1, decide_eq_false h2,
              decide_eq_false h3, decide_eq_true h4, h0, h1, h2, h3, h4]
          · by_cases h5 : x < 250
            · have p1 : (0 : ℚ) ≤ x := by linarith
              have p2 : (60 : ℚ) ≤ x := by linarith
              have p3 : (100 : ℚ) ≤ x := by linarith
              have p4 : (160 : ℚ) ≤ x := by linarith
              have p5 : (200 : ℚ) ≤ x := by linarith
              simp [categorize_speed, WPM_RANGES, wpmRangeHit, List.find?,
                decide_eq_true p1, decide_eq_true p2, decide_eq_true p3,
                decide_eq_true p4, decide_eq_true p5, decide_eq_false h1,
                decide_eq_false h2, decide_eq_false h3, decide_eq_false h4,
                decide_eq_true h5, h0, h1, h2, h3, h4, h5]
            · have p1 : (0 : ℚ) ≤ x := by linarith
              have p2 : (60 : ℚ) ≤ x := by linarith
              have p3 : (100 : ℚ) ≤ x := by linarith
              have p4 : (160 : ℚ) ≤ x := by linarith
              have p5 : (200 : ℚ) ≤ x := by linarith
              have p6 : (250 : ℚ) ≤ x := by linarith
              simp [categorize_speed, WPM_RANGES, wpmRangeHit, List.find?,
                decide_eq_true p1, decide_eq_true p2, decide_eq_true p3,
                decide_eq_true p4, decide_eq_true p5, decide_eq_true p6,
                decide_eq_false h1, decide_eq_false h2, decide_eq_false h3,
                decide_eq_false h4, decide_eq_false h5,
                h0, h1, h2, h3, h4, h5]

/-- C8: `detect_suspicious_reading` returns true exactly when the fluency is
strictly above `suspicious_wpm_threshold`; at the threshold itself (in
particular at the default 250) the flag is false. -/
theorem suspicious_flag_strict :
    (∀ (svc : EvaluationService) (x : ℚ),
      detect_suspicious_reading svc x = true ↔ svc.suspicious_wpm_threshold < x) ∧
    (∀ svc : EvaluationService,
      detect_suspicious_reading svc svc.suspicious_wpm_threshold = false) ∧
    EvaluationService.default.suspicious_wpm_threshold = 250 ∧
    detect_suspicious_reading EvaluationService.default 250 = false := by
  refine ⟨fun svc x => ?_, fun svc => ?_, rfl, ?_⟩
  · simp [detect_suspicious_reading]
  · simp [detect_suspicious_reading]
  · simp [detect_suspicious_reading, EvaluationService.default]

/-- C9: `evaluate` reads its comparison dict with defaults 0, 0 and 1: on the
empty dict it returns accuracy 0 and completeness 0 (and, being a total Lean
function, raises nothing), and whenever `total_reference_words` is absent the
completeness is computed with denominator 1 — `min 100 (matched·100)` — not
the zero-guard value 0. -/
theorem evaluate_dict_defaults :
    ∀ (svc : EvaluationService) (dur : ℚ) (wc : ℤ),
      ((evaluate svc ComparisonDict.empty dur wc).accuracy = 0 ∧
        (evaluate svc ComparisonDict.empty dur wc).completeness = 0) ∧
      ∀ cr : ComparisonDict, cr.total_reference_words = none →
        (evaluate svc cr dur wc).completeness
          = min 100 ((cr.matched_words.getD 0 : ℚ) * 100) := by
  intro svc dur wc
  refine ⟨⟨?_, ?_⟩, fun cr h => ?_⟩
  · simp [evaluate, ComparisonDict.empty, calculate_accuracy]
  · simp [evaluate, ComparisonDict.empty, calculate_completeness]
  · simp [evaluate, h, calculate_completeness]

/-- Witness for C9: a dict carrying `matched_words = 2` and
`total_student_words = 3` but no `total_reference_words`. -/
theorem evaluate_dict_defaults_witness :
    (ComparisonDict.mk (some 2) (some 3) none none none).total_reference_words
        = none ∧
    (evaluate EvaluationService.default
        (ComparisonDict.mk (some 2) (some 3) none none none) 60 120).completeness
      = min 100
          (((ComparisonDict.mk (some 2) (some 3) none none none).matched_words.getD 0 : ℚ)
            * 100) :=
  ⟨rfl, (evaluate_dict_defaults EvaluationService.default 60 120).2 _ rfl⟩

/-- C10: the module singleton `get_text_service` ignores its threshold
argument after the first call — calling it with `t1` and then `t2 ≠ t1`
yields the same `TextService` instance, whose threshold is `t1`. -/
theorem get_text_service_singleton :
    ∀ t1 t2 : ℤ, t1 ≠ t2 →
      (get_text_service t2 (get_text_service t1 none).2).1
          = (get_text_service t1 none).1 ∧
      (get_text_service t2 (get_text_service t1 none).2).1.fuzzy_threshold = t1 := by
  intro t1 t2 _
  simp [get_text_service]

/-- Witness for C10: thresholds 80 then 90 — the second call still returns
the threshold-80 instance. -/
theorem get_text_service_singleton_witness :
    (80 : ℤ) ≠ 90 ∧
    (get_text_service 90 (get_text_service 80 none).2).1
        = (get_text_service 80 none).1 ∧
    (get_text_service 90 (get_text_service 80 none).2).1.fuzzy_threshold = 80 := by
  refine ⟨by decide, ?_, ?_⟩
  · exact (get_text_service_singleton 80 90 (by decide)).1
  · exact (get_text_service_singleton 80 90 (by decide)).2

/-- Inversion for `pyPop`: a successful pop returns the element at some valid
index and the list with that index erased. -/
theorem pyPop_eq_some {l : List String} {i : ℤ} {a : String} {l' : List String}
    (h : pyPop l i = some (a, l')) :
    ∃ k : ℕ, k < l.length ∧ a = l.getD k "" ∧ l' = l.eraseIdx k := by
  dsimp only [pyPop] at h
  split at h
  · split at h
    · rename_i h1 hc
      rw [Option.some.injEq, Prod.mk.injEq] at h
      exact ⟨(i + (l.length : ℤ)).toNat, by omega, h.1.symm, h.2.symm⟩
    · exact absurd h (by simp)
  · split at h
    · rename_i h1 hc
      rw [Option.some.injEq, Prod.mk.injEq] at h
      exact ⟨i.toNat, by omega, h.1.symm, h.2.symm⟩
    · exact absurd h (by simp)

/-- Inversion for `compareStep`: a successful step is an exact removal of the
first occurrence, a fuzzy removal of some valid index, or no match. -/
theorem compareStep_inv {score : String → String → ℚ} {thr : ℚ} {uf : Bool}
    {pool : List String} {w : String} {r : StepResult}
    (h : compareStep score thr uf pool w = some r) :
    (w ∈ pool ∧ r = .exact (pool.erase w)) ∨
    (∃ ref sc k, k < pool.length ∧ r = .fuzzy ref sc (pool.eraseIdx k)) ∨
    r = .nomatch := by
  unfold compareStep at h
  split at h
  · rename_i hmem
    rw [Option.some.injEq] at h
    exact Or.inl ⟨hmem, h.symm⟩
  · split at h
    · split at h
      · rename_i hthr
        cases hp : pyPop pool (findBest score w pool).2.2 with
        | none => rw [hp] at h; exact absurd h (by simp)
        | some p =>
          obtain ⟨pa, pl⟩ := p
          rw [hp] at h
          rw [Option.some.injEq] at h
          obtain ⟨k, hk, _, hl⟩ := pyPop_eq_some hp
          exact Or.inr (Or.inl ⟨(findBest score w pool).1,
            (findBest score w pool).2.1, k, hk, by rw [← h, hl]⟩)
      · rw [Option.some.injEq] at h
        exact Or.inr (Or.inr h.symm)
    · rw [Option.some.injEq] at h
      exact Or.inr (Or.inr h.symm)

/-- Loop invariant of `compare_texts`: matches plus remaining pool size is
conserved, at most one match per student word is added, the pool only
shrinks multiset-wise, and one detail record is appended per student word. -/
theorem compareAux_inv (score : String → String → ℚ) (thr : ℚ) (uf : Bool) :
    ∀ (ws : List String) (st st' : LoopState),
      compareAux score thr uf ws st = some st' →
      st'.matched_words + st'.reference_remaining.length
          = st.matched_words + st.reference_remaining.length ∧
      st'.matched_words ≤ st.matched_words + ws.length ∧
      (∀ w : String, st'.reference_remaining.count w
          ≤ st.reference_remaining.count w) ∧
      st'.match_details.map (fun d => d.student_word)
          = st.match_details.map (fun d => d.student_word) ++ ws := by
  intro ws
  induction ws with
  | nil =>
    intro st st' h
    simp only [compareAux, Option.some.injEq] at h
    subst h
    simp
  | cons w ws ih =>
    intro st st' h
    simp only [compareAux] at h
    cases hs : compareStep score thr uf st.reference_remaining w with
    | none => rw [hs] at h; exact absurd h (by simp)
    | some r =>
      rw [hs] at h
      obtain ⟨e1, e2, e3, e4⟩ := ih (applyStep w r st) st' h
      rcases compareStep_inv hs with ⟨hmem, rfl⟩ | ⟨ref, sc, k, hk, rfl⟩ | rfl
      · have hlen : (st.reference_remaining.erase w).length
            = st.reference_remaining.length - 1 := List.length_erase_of_mem hmem
        have hpos : 1 ≤ st.reference_remaining.length :=
          List.length_pos.mpr (by rintro hnil; rw [hnil] at hmem; simp at hmem)
        have hcnt : ∀ x : String, (st.reference_remaining.erase w).count x
            ≤ st.reference_remaining.count x :=
          fun x => (List.erase_sublist w st.reference_remaining).count_le x
        simp only [applyStep] at e1 e2 e3 e4
        refine ⟨by omega, by simp only [List.length_cons]; omega, fun x => le_trans (e3 x) (hcnt x), ?_⟩
        · rw [e4]; simp
      · have hlen : (st.reference_remaining.eraseIdx k).length
            = st.reference_remaining.length - 1 := by
          rw [List.length_eraseIdx]; simp [hk]
        have hpos : 1 ≤ st.reference_remaining.length := by omega
        have hcnt : ∀ x : String, (st.reference_remaining.eraseIdx k).count x
            ≤ st.reference_remaining.count x :=
          fun x => (List.eraseIdx_sublist st.reference_remaining k).count_le x
        simp only [applyStep] at e1 e2 e3 e4
        refine ⟨by omega, by simp only [List.length_cons]; omega, fun x => le_trans (e3 x) (hcnt x), ?_⟩
        · rw [e4]; simp
      · simp only [applyStep] at e1 e2 e3 e4
        refine ⟨by omega, by simp only [List.length_cons]; omega, e3, ?_⟩
        · rw [e4]; simp

/-- C1: for every score function, threshold and `use_fuzzy` setting, a result
of `compare_texts` (it is produced from the token lists by `compareTokens`)
satisfies `matched_words ≤ min(total_student_words, total_reference_words)`;
moreover matched plus unconsumed reference tokens account for the whole
reference (each reference token is consumed by at most one match — the
remaining pool is a sub-multiset of the reference), and the `match_details`
list carries exactly one record per candidate token, in order. -/
theorem compare_texts_matching_bound :
    ∀ (score : String → String → ℚ) (fuzzy_threshold : ℚ) (use_fuzzy : Bool)
      (student_tokens reference_tokens : List String) (r : CompareResult),
      compareTokens score fuzzy_threshold use_fuzzy student_tokens
          reference_tokens = some r →
      r.matched_words ≤ min r.total_student_words r.total_reference_words ∧
      r.matched_words + r.unmatched_reference.length = r.total_reference_words ∧
      (∀ w : String, r.unmatched_reference.count w ≤ reference_tokens.count w) ∧
      r.match_details.map (fun d => d.student_word) = student_tokens := by
  intro score thr uf sts rts r h
  unfold compareTokens at h
  cases ha : compareAux score thr uf sts ⟨0, [], [], [], [], rts⟩ with
  | none => rw [ha] at h; exact absurd h (by simp)
  | some st =>
    rw [ha] at h
    simp only [Option.map_some', Option.some.injEq] at h
    obtain ⟨e1, e2, e3, e4⟩ := compareAux_inv score thr uf sts _ st ha
    subst h
    simp only at e1 e2 e3 e4 ⊢
    refine ⟨?_, ?_, e3, by simpa using e4⟩
    · simp only [le_min_iff]
      constructor <;> omega
    · omega

/-- Witness for C1: two student words against one reference word (constant
zero scorer, threshold 80): one exact match, one unmatched word. -/
theorem compare_texts_matching_bound_witness :
    (compareTokens (fun _ _ => (0 : ℚ)) 80 true ["a", "b"] ["a"]
        = some ⟨1, 2, 1, ["a"], [], ["b"], [],
            [⟨"a", true, some "exact", some "a", 100⟩,
             ⟨"b", false, none, none, 0⟩]⟩) ∧
    ((1 : ℕ) ≤ min 2 1 ∧
      1 + ([] : List String).length = 1 ∧
      (∀ w : String, ([] : List String).count w ≤ (["a"] : List String).count w) ∧
      ([⟨"a", true, some "exact", some "a", (100 : ℚ)⟩,
        ⟨"b", false, none, none, 0⟩] : List MatchDetail).map
          (fun d => d.student_word) = ["a", "b"]) :=
  ⟨by decide,
    compare_texts_matching_bound (fun _ _ => (0 : ℚ)) 80 true ["a", "b"] ["a"]
      ⟨1, 2, 1, ["a"], [], ["b"], [],
        [⟨"a", true, some "exact", some "a", 100⟩,
         ⟨"b", false, none, none, 0⟩]⟩ (by decide)⟩

/-- Invariant of the best-match scan: either no pool entry beats the
accumulator's score (strict `>`), and the accumulator is returned
unchanged, or the scan returns the first pool entry attaining the maximum
score, which strictly beats the accumulator. -/
theorem findBestAux_spec (score : String → String → ℚ) (w : String) :
    ∀ (l : List String) (i0 : ℕ) (acc : Option String × ℚ × ℤ),
      (findBestAux score w l i0 acc = acc ∧
        ∀ j, j < l.length → score w (l.getD j "") ≤ acc.2.1) ∨
      (∃ k, k < l.length ∧
        findBestAux score w l i0 acc
          = (some (l.getD k ""), score w (l.getD k ""), (i0 : ℤ) + k) ∧
        acc.2.1 < score w (l.getD k "") ∧
        (∀ j, j < l.length → score w (l.getD j "") ≤ score w (l.getD k "")) ∧
        (∀ j, j < k → score w (l.getD j "") < score w (l.getD k ""))) := by
  intro l
  induction l with
  | nil => intro i0 acc; left; exact ⟨rfl, by simp⟩
  | cons c rest ih =>
    intro i0 acc
    by_cases hup : score w c > acc.2.1
    · have hrec : findBestAux score w (c :: rest) i0 acc
          = findBestAux score w rest (i0 + 1) (some c, score w c, (i0 : ℤ)) := by
        simp [findBestAux, hup]
      rcases ih (i0 + 1) (some c, score w c, (i0 : ℤ)) with
        ⟨hl, hall⟩ | ⟨k, hk, hres, hlt, hall, hfirst⟩
      · right
        refine ⟨0, by simp, ?_, by simpa using hup, ?_, ?_⟩
        · rw [hrec, hl]; simp
        · intro j hj
          cases j with
          | zero => simp
          | succ j =>
            simpa using hall j (by simpa using hj)
        · intro j hj; exact absurd hj (Nat.not_lt_zero j)
      · right
        have hgd : (c :: rest).getD (k + 1) "" = rest.getD k "" := by simp
        refine ⟨k + 1, by simpa using hk, ?_, ?_, ?_, ?_⟩
        · rw [hrec, hres, hgd]
          congr 2
          push_cast
          ring
        · rw [hgd]; dsimp only at hlt; linarith
        · intro j hj
          cases j with
          | zero =>
            rw [hgd]
            dsimp only at hlt
            simpa using le_of_lt hlt
          | succ j =>
            rw [hgd]
            simpa using hall j (by simpa using hj)
        · intro j hj
          cases j with
          | zero => rw [hgd]; dsimp only at hlt; simpa using hlt
          | succ j => rw [hgd]; simpa using hfirst j (by omega)
    · have hle : score w c ≤ acc.2.1 := not_lt.mp hup
      have hrec : findBestAux score w (c :: rest) i0 acc
          = findBestAux score w rest (i0 + 1) acc := by
        simp [findBestAux, hup]
      rcases ih (i0 + 1) acc with ⟨hl, hall⟩ | ⟨k, hk, hres, hlt, hall, hfirst⟩
      · left
        refine ⟨by rw [hrec, hl], ?_⟩
        intro j hj
        cases j with
        | zero => simpa using hle
        | succ j => simpa using hall j (by simpa using hj)
      · right
        have hgd : (c :: rest).getD (k + 1) "" = rest.getD k "" := by simp
        refine ⟨k + 1, by simpa using hk, ?_, ?_, ?_, ?_⟩
        · rw [hrec, hres, hgd]
          congr 2
          push_cast
          ring
        · rw [hgd]; exact hlt
        · intro j hj
          cases j with
          | zero => rw [hgd]; exact le_trans hle (le_of_lt hlt)
          | succ j => rw [hgd]; simpa using hall j (by simpa using hj)
        · intro j hj
          cases j with
          | zero => rw [hgd]; exact lt_of_le_of_lt hle hlt
          | succ j => rw [hgd]; simpa using hfirst j (by omega)

/-- Specification of `findBest`: either every pool entry scores at most 0 and
the initial accumulator `(None, 0, -1)` is returned, or the result is the
first pool entry attaining the (positive) maximum score. -/
theorem findBest_spec (score : String → String → ℚ) (w : String)
    (pool : List String) :
    (findBest score w pool = (none, 0, -1) ∧
      ∀ j, j < pool.length → score w (pool.getD j "") ≤ 0) ∨
    (∃ k, k < pool.length ∧
      findBest score w pool
        = (some (pool.getD k ""), score w (pool.getD k ""), (k : ℤ)) ∧
      0 < score w (pool.getD k "") ∧
      (∀ j, j < pool.length → score w (pool.getD j "") ≤ score w (pool.getD k "")) ∧
      (∀ j, j < k → score w (pool.getD j "") < score w (pool.getD k ""))) := by
  rcases findBestAux_spec score w pool 0 (none, 0, -1) with
    ⟨hl, hall⟩ | ⟨k, hk, hres, hlt, hall, hfirst⟩
  · exact Or.inl ⟨hl, hall⟩
  · exact Or.inr ⟨k, hk, by simpa using hres, by simpa using hlt, hall, hfirst⟩

/-- Popping a valid non-negative index. -/
theorem pyPop_coe {pool : List String} {k : ℕ} (hk : k < pool.length) :
    pyPop pool (k : ℤ) = some (pool.getD k "", pool.eraseIdx k) := by
  have h1 : ¬((k : ℤ) < 0) := by omega
  have h2 : (0 : ℤ) ≤ (k : ℤ) ∧ (k : ℤ) < pool.length := by
    constructor
    · omega
    · exact_mod_cast hk
  dsimp only [pyPop]
  rw [if_neg h1, if_pos h2]
  simp

/-- C2 (amended): for a candidate token with no exact match in the pool and
fuzzy matching enabled, provided at least one pool entry has positive score,
the algorithm selects the maximum-scoring pool entry breaking ties by lowest
index (strict `>` update), and accepts — removing exactly that entry and
emitting its word and score — if and only if the best score reaches
`fuzzy_threshold`.  (Without a positive-scoring entry, possible only when
`fuzzy_threshold ≤ 0` since the unupdated best score is 0, the source
instead pops the *last* pool entry via index -1 and records no reference
word — see the counterexample.) -/
theorem fuzzy_fallback_selection :
    ∀ (score : String → String → ℚ) (fuzzy_threshold : ℚ) (pool : List String)
      (w : String),
      w ∉ pool →
      (∃ j, j < pool.length ∧ 0 < score w (pool.getD j "")) →
      ∃ k, k < pool.length ∧
        (∀ j, j < pool.length → score w (pool.getD j "") ≤ score w (pool.getD k "")) ∧
        (∀ j, j < k → score w (pool.getD j "") < score w (pool.getD k "")) ∧
        (fuzzy_threshold ≤ score w (pool.getD k "") →
          compareStep score fuzzy_threshold true pool w
            = some (.fuzzy (some (pool.getD k "")) (score w (pool.getD k ""))
                (pool.eraseIdx k))) ∧
        (¬ fuzzy_threshold ≤ score w (pool.getD k "") →
          compareStep score fuzzy_threshold true pool w = some .nomatch) := by
  intro score thr pool w hmem hpos
  rcases findBest_spec score w pool with ⟨_, hall⟩ | ⟨k, hk, heq, _, hall, hfirst⟩
  · obtain ⟨j, hj, hjpos⟩ := hpos
    exact absurd (hall j hj) (by linarith)
  · refine ⟨k, hk, hall, hfirst, ?_, ?_⟩
    · intro hge
      unfold compareStep
      rw [if_neg hmem, if_pos rfl, heq]
      dsimp only
      rw [if_pos hge, pyPop_coe hk]
    · intro hnge
      unfold compareStep
      rw [if_neg hmem, if_pos rfl, heq]
      dsimp only
      rw [if_neg hnge]

/-- Witness for C2: constant scorer 90 on a one-word pool, threshold 80. -/
theorem fuzzy_fallback_selection_witness :
    ("x" ∉ (["y"] : List String)) ∧
    (∃ j, j < (["y"] : List String).length ∧
      (0 : ℚ) < (fun (_ _ : String) => (90 : ℚ)) "x" ((["y"] : List String).getD j "")) ∧
    (∃ k, k < (["y"] : List String).length ∧
      (∀ j, j < (["y"] : List String).length →
        (fun (_ _ : String) => (90 : ℚ)) "x" ((["y"] : List String).getD j "")
          ≤ (fun (_ _ : String) => (90 : ℚ)) "x" ((["y"] : List String).getD k "")) ∧
      (∀ j, j < k →
        (fun (_ _ : String) => (90 : ℚ)) "x" ((["y"] : List String).getD j "")
          < (fun (_ _ : String) => (90 : ℚ)) "x" ((["y"] : List String).getD k "")) ∧
      ((80 : ℚ) ≤ (fun (_ _ : String) => (90 : ℚ)) "x" ((["y"] : List String).getD k "") →
        compareStep (fun (_ _ : String) => (90 : ℚ)) 80 true ["y"] "x"
          = some (.fuzzy (some ((["y"] : List String).getD k ""))
              ((fun (_ _ : String) => (90 : ℚ)) "x" ((["y"] : List String).getD k ""))
              ((["y"] : List String).eraseIdx k))) ∧
      (¬ (80 : ℚ) ≤ (fun (_ _ : String) => (90 : ℚ)) "x" ((["y"] : List String).getD k "") →
        compareStep (fun (_ _ : String) => (90 : ℚ)) 80 true ["y"] "x"
          = some .nomatch)) :=
  ⟨by decide, ⟨0, by decide, by norm_num⟩,
    fuzzy_fallback_selection (fun _ _ => (90 : ℚ)) 80 ["y"] "x" (by decide)
      ⟨0, by decide, by norm_num⟩⟩

/-- Counterexample to C2 as literally stated: with the (spec-modelled)
`fuzz.ratio` scorer, threshold 0, candidate "ab" and pool ["cd", "ef"], both
pool entries score 0, so the maximum-scoring entry at the lowest index is
"cd" (index 0) and the best score 0 reaches the threshold — yet the code
does not remove "cd" and record it: the strict `>` update never fires, so
`best_idx` stays -1 and `pop(-1)` removes the *last* entry "ef", while the
emitted record carries no reference word and `matched_words` is still
incremented. -/
theorem fuzzy_fallback_selection_counterexample :
    ratioScore "ab" "cd" = 0 ∧ ratioScore "ab" "ef" = 0 ∧
    ("ab" ∉ (["cd", "ef"] : List String)) ∧ ((0 : ℚ) ≤ 0) ∧
    compareStep ratioScore 0 true ["cd", "ef"] "ab"
        = some (.fuzzy none 0 ["cd"]) ∧
    compareStep ratioScore 0 true ["cd", "ef"] "ab"
        ≠ some (.fuzzy (some "cd") 0 ["ef"]) := by
  have h1 : ratioScore "ab" "cd" = 0 := by
    have h : lcsLen "ab".data "cd".data = 0 := by simp only [lcsLen]; decide
    rw [ratioScore, h]; norm_num
  have h2 : ratioScore "ab" "ef" = 0 := by
    have h : lcsLen "ab".data "ef".data = 0 := by simp only [lcsLen]; decide
    rw [ratioScore, h]; norm_num
  have hstep : compareStep ratioScore 0 true ["cd", "ef"] "ab"
      = some (.fuzzy none 0 ["cd"]) := by
    have hfb : findBest ratioScore "ab" ["cd", "ef"] = (none, 0, -1) := by
      simp [findBest, findBestAux, h1, h2]
    unfold compareStep
    rw [if_neg (by decide), if_pos rfl, hfb]
    dsimp only
    rw [if_pos (le_refl (0 : ℚ))]
    have hpop : pyPop ["cd", "ef"] (-1) = some ("ef", ["cd"]) := by
      dsimp only [pyPop]
      norm_num
    rw [hpop]
  exact ⟨h1, h2, by decide, le_refl 0, hstep, by rw [hstep]; simp⟩

/-- Reduction of `Char.ofNat` for small (valid) code points. -/
theorem toNat_ofNat_small {n : ℕ} (h : n < 55296) : (Char.ofNat n).toNat = n := by
  have hv : n.isValidChar := Or.inl h
  simp only [Char.ofNat, hv, dite_true, Char.ofNatAux, Char.toNat, UInt32.toNat]
  rfl

/-- Lowercasing an uppercase letter adds 32 to its code point. -/
theorem lowerCh_toNat {c : Char} (h : 65 ≤ c.toNat ∧ c.toNat ≤ 90) :
    (lowerCh c).toNat = c.toNat + 32 := by
  have hlt : c.toNat + 32 < 55296 := by
    have := Char.utf8Size_pos c  -- c.toNat ≤ 90 suffices; keep omega happy
    omega
  rw [lowerCh, if_pos h, toNat_ofNat_small hlt]

/-- Characters outside `A`–`Z` are fixed by `lowerCh`. -/
theorem lowerCh_fix {c : Char} (h : ¬(65 ≤ c.toNat ∧ c.toNat ≤ 90)) :
    lowerCh c = c := by
  rw [lowerCh, if_neg h]

/-- Per-character lowercasing is idempotent. -/
theorem lowerCh_idem (c : Char) : lowerCh (lowerCh c) = lowerCh c := by
  by_cases h : 65 ≤ c.toNat ∧ c.toNat ≤ 90
  · apply lowerCh_fix
    rw [lowerCh_toNat h]
    omega
  · rw [lowerCh_fix h, lowerCh_fix h]

/-- Unfolding `collapseAux` on the empty list. -/
theorem collapseAux_nil (b : Bool) : collapseAux b [] = [] := rfl

/-- Unfolding `collapseAux` on a whitespace head inside a run. -/
theorem collapseAux_cons_space_true {x : Char} {xs : List Char}
    (hx : isSpaceCh x = true) :
    collapseAux true (x :: xs) = collapseAux true xs := by
  simp [collapseAux, hx]

/-- Unfolding `collapseAux` on a whitespace head outside a run. -/
theorem collapseAux_cons_space_false {x : Char} {xs : List Char}
    (hx : isSpaceCh x = true) :
    collapseAux false (x :: xs) = ' ' :: collapseAux true xs := by
  simp [collapseAux, hx]

/-- Unfolding `collapseAux` on a non-whitespace head. -/
theorem collapseAux_cons_nonspace {x : Char} {xs : List Char} {b : Bool}
    (hx : isSpaceCh x = false) :
    collapseAux b (x :: xs) = x :: collapseAux false xs := by
  simp [collapseAux, hx]

/-- Characters of a collapsed string are spaces or input characters. -/
theorem mem_collapseAux {c : Char} :
    ∀ (l : List Char) (b : Bool), c ∈ collapseAux b l → c = ' ' ∨ c ∈ l := by
  intro l
  induction l with
  | nil => intro b h; rw [collapseAux_nil] at h; simp at h
  | cons x xs ih =>
    intro b h
    by_cases hx : isSpaceCh x = true
    · cases b with
      | true =>
        rw [collapseAux_cons_space_true hx] at h
        rcases ih true h with h' | h'
        · exact Or.inl h'
        · exact Or.inr (List.mem_cons_of_mem x h')
      | false =>
        rw [collapseAux_cons_space_false hx] at h
        rcases List.mem_cons.mp h with rfl | h'
        · exact Or.inl rfl
        · rcases ih true h' with h'' | h''
          · exact Or.inl h''
          · exact Or.inr (List.mem_cons_of_mem x h'')
    · rw [collapseAux_cons_nonspace (by simpa using hx)] at h
      rcases List.mem_cons.mp h with rfl | h'
      · exact Or.inr (List.mem_cons_self c xs)
      · rcases ih false h' with h'' | h''
        · exact Or.inl h''
        · exact Or.inr (List.mem_cons_of_mem x h'')

/-- Every whitespace character in a collapsed string is a literal space. -/
theorem collapseAux_spaces {c : Char} :
    ∀ (l : List Char) (b : Bool),
      c ∈ collapseAux b l → isSpaceCh c = true → c = ' ' := by
  intro l
  induction l with
  | nil => intro b h _; rw [collapseAux_nil] at h; simp at h
  | cons x xs ih =>
    intro b h hc
    by_cases hx : isSpaceCh x = true
    · cases b with
      | true =>
        rw [collapseAux_cons_space_true hx] at h
        exact ih true h hc
      | false =>
        rw [collapseAux_cons_space_false hx] at h
        rcases List.mem_cons.mp h with rfl | h'
        · rfl
        · exact ih true h' hc
    · rw [collapseAux_cons_nonspace (by simpa using hx)] at h
      rcases List.mem_cons.mp h with rfl | h'
      · exact absurd hc hx
      · exact ih false h' hc

/-- A collapse continued inside a whitespace run starts with a non-space
character (leading spaces of the remainder are skipped). -/
theorem collapseAux_true_head :
    ∀ (l : List Char) (c : Char),
      (collapseAux true l).head? = some c → isSpaceCh c = false := by
  intro l
  induction l with
  | nil => intro c h; rw [collapseAux_nil] at h; simp at h
  | cons x xs ih =>
    intro c h
    by_cases hx : isSpaceCh x = true
    · rw [collapseAux_cons_space_true hx] at h
      exact ih c h
    · rw [collapseAux_cons_nonspace (by simpa using hx)] at h
      simp only [List.head?_cons, Option.some.injEq] at h
      subst h
      simpa using hx

/-- A collapsed string has no two adjacent whitespace characters. -/
theorem collapseAux_chain' :
    ∀ (l : List Char) (b : Bool), List.Chain' spacedOK (collapseAux b l) := by
  intro l
  induction l with
  | nil => intro b; rw [collapseAux_nil]; exact List.chain'_nil
  | cons x xs ih =>
    intro b
    by_cases hx : isSpaceCh x = true
    · cases b with
      | true => rw [collapseAux_cons_space_true hx]; exact ih true
      | false =>
        rw [collapseAux_cons_space_false hx, List.chain'_cons']
        refine ⟨?_, ih true⟩
        intro y hy
        have hns := collapseAux_true_head xs y hy
        simp [spacedOK, hns]
    · rw [collapseAux_cons_nonspace (by simpa using hx), List.chain'_cons']
      refine ⟨?_, ih false⟩
      intro y _
      simp [spacedOK, hx]

/-- A right-strip (reverse, drop, reverse) is a prefix of its input. -/
theorem reverse_dropWhile_front (p : Char → Bool) (m : List Char) :
    (m.reverse.dropWhile p).reverse <+: m := by
  obtain ⟨t, ht⟩ := List.dropWhile_suffix (l := m.reverse) p
  exact ⟨t.reverse, by rw [← List.reverse_append, ht, List.reverse_reverse]⟩

/-- `stripWS` returns a contiguous fragment of its input. -/
theorem stripWS_within (l : List Char) : stripWS l <:+: l := by
  unfold stripWS stripEnd
  have h1 : l.dropWhile isSpaceCh <:+ l := List.dropWhile_suffix _
  exact (reverse_dropWhile_front isSpaceCh (l.dropWhile isSpaceCh)).isInfix.trans
    h1.isInfix

/-- The head of `dropWhile p` never satisfies `p`. -/
theorem head?_dropWhile {p : Char → Bool} :
    ∀ (l : List Char) (c : Char), (l.dropWhile p).head? = some c → p c = false := by
  intro l
  induction l with
  | nil => intro c h; simp at h
  | cons x xs ih =>
    intro c h
    by_cases hx : p x = true
    · rw [List.dropWhile_cons, if_pos hx] at h
      exact ih c h
    · rw [List.dropWhile_cons, if_neg hx, List.head?_cons,
        Option.some.injEq] at h
      subst h
      simpa using hx

/-- A stripped string does not start with whitespace. -/
theorem stripWS_head {l : List Char} {c : Char}
    (h : (stripWS l).head? = some c) : isSpaceCh c = false := by
  unfold stripWS stripEnd at h
  obtain ⟨t, ht⟩ := reverse_dropWhile_front isSpaceCh (l.dropWhile isSpaceCh)
  have hh : (l.dropWhile isSpaceCh).head? = some c := by
    rw [← ht]
    cases hcase : ((l.dropWhile isSpaceCh).reverse.dropWhile isSpaceCh).reverse with
    | nil => rw [hcase] at h; simp at h
    | cons y ys =>
      rw [hcase] at h
      simp only [List.head?_cons, Option.some.injEq] at h
      subst h
      simp
  exact head?_dropWhile l c hh

/-- A stripped string does not end with whitespace. -/
theorem stripWS_getLast {l : List Char} {c : Char}
    (h : (stripWS l).getLast? = some c) : isSpaceCh c = false := by
  unfold stripWS stripEnd at h
  rw [List.getLast?_reverse] at h
  exact head?_dropWhile _ c h

/-- A map whose function fixes every element of the list is the identity. -/
theorem map_eq_self_of_fix {f : Char → Char} :
    ∀ {l : List Char}, (∀ c ∈ l, f c = c) → l.map f = l := by
  intro l
  induction l with
  | nil => intro _; rfl
  | cons x xs ih =>
    intro h
    rw [List.map_cons, h x (List.mem_cons_self x xs),
      ih fun c hc => h c (List.mem_cons_of_mem x hc)]

/-- A collapse entered in run state on a string that does not start with
whitespace behaves like a fresh collapse. -/
theorem collapseAux_true_of_head {l : List Char}
    (h : ∀ c, l.head? = some c → isSpaceCh c = false) :
    collapseAux true l = collapseAux false l := by
  cases l with
  | nil => rfl
  | cons x xs =>
    have hx := h x rfl
    rw [collapseAux_cons_nonspace hx, collapseAux_cons_nonspace hx]

/-- Collapsing fixes a string whose spaces are literal and non-adjacent. -/
theorem collapse_eq_self :
    ∀ l : List Char,
      (∀ c ∈ l, isSpaceCh c = true → c = ' ') → List.Chain' spacedOK l →
      collapseAux false l = l := by
  intro l
  induction l with
  | nil => intro _ _; rfl
  | cons x xs ih =>
    intro hsp hch
    obtain ⟨hhd, htl⟩ := List.chain'_cons'.mp hch
    by_cases hx : isSpaceCh x = true
    · have hx' : x = ' ' := hsp x (List.mem_cons_self x xs) hx
      have hxs_head : ∀ c, xs.head? = some c → isSpaceCh c = false := by
        intro c hc
        have hsok := hhd c hc
        simp only [spacedOK, hx, true_and] at hsok
        simpa using hsok
      rw [collapseAux_cons_space_false hx, collapseAux_true_of_head hxs_head,
        ih (fun c hc h' => hsp c (List.mem_cons_of_mem x hc) h') htl, hx']
    · rw [collapseAux_cons_nonspace (by simpa using hx),
        ih (fun c hc h' => hsp c (List.mem_cons_of_mem x hc) h') htl]

/-- `dropWhile` fixes a string whose head fails the predicate. -/
theorem dropWhile_eq_self_of_head {p : Char → Bool} {l : List Char}
    (h : ∀ c, l.head? = some c → p c = false) : l.dropWhile p = l := by
  cases l with
  | nil => rfl
  | cons x xs => rw [List.dropWhile_cons, if_neg (by simp [h x rfl])]

/-- Stripping fixes a string that neither starts nor ends with whitespace. -/
theorem strip_eq_self {l : List Char}
    (h1 : ∀ c, l.head? = some c → isSpaceCh c = false)
    (h2 : ∀ c, l.getLast? = some c → isSpaceCh c = false) :
    stripWS l = l := by
  unfold stripWS stripEnd
  rw [dropWhile_eq_self_of_head h1]
  rw [dropWhile_eq_self_of_head (by intro c hc; rw [List.head?_reverse] at hc; exact h2 c hc),
    List.reverse_reverse]

/-- Every character of a normalized string is lowercase-fixed and
non-punctuation. -/
theorem normalize_mem_lower_punct :
    ∀ (x : List Char) (c : Char), c ∈ normalize x →
      lowerCh c = c ∧ isPunctCh c = false := by
  intro x c hc
  unfold normalize at hc
  split at hc
  · simp at hc
  · have hc1 : c ∈ collapseWS ((x.map lowerCh).map punctToSpace) :=
      (stripWS_within _).subset hc
    rcases mem_collapseAux _ false hc1 with rfl | hc2
    · exact ⟨by decide, by decide⟩
    · rw [List.mem_map] at hc2
      obtain ⟨a, ha, rfl⟩ := hc2
      rw [List.mem_map] at ha
      obtain ⟨a0, _, rfl⟩ := ha
      unfold punctToSpace
      by_cases hp : isPunctCh (lowerCh a0) = true
      · rw [if_pos hp]
        exact ⟨by decide, by decide⟩
      · rw [if_neg hp]
        exact ⟨lowerCh_idem a0, by simpa using hp⟩

/-- Whitespace structure of a normalized string: spaces are literal and
non-adjacent, and the string neither starts nor ends with whitespace. -/
theorem normalize_ws_props (x : List Char) :
    (∀ c ∈ normalize x, isSpaceCh c = true → c = ' ') ∧
    List.Chain' spacedOK (normalize x) ∧
    (∀ c, (normalize x).head? = some c → isSpaceCh c = false) ∧
    (∀ c, (normalize x).getLast? = some c → isSpaceCh c = false) := by
  by_cases hx : x = []
  · subst hx
    refine ⟨?_, ?_, ?_, ?_⟩ <;> simp [normalize]
  · unfold normalize
    rw [if_neg hx]
    refine ⟨?_, ?_, fun c hc => stripWS_head hc, fun c hc => stripWS_getLast hc⟩
    · intro c hc hsp
      exact collapseAux_spaces _ false ((stripWS_within _).subset hc) hsp
    · exact List.Chain'.infix (collapseAux_chain' _ false) (stripWS_within _)

/-- C4: `normalize` is idempotent — normalizing an already-normalized string
changes nothing, because every stage (lowercasing, punctuation substitution,
whitespace collapsing, stripping) fixes the output of `normalize`. -/
theorem normalize_idempotent :
    ∀ x : List Char, normalize (normalize x) = normalize x := by
  intro x
  by_cases hy : normalize x = []
  · rw [hy]; simp [normalize]
  · have hmem := normalize_mem_lower_punct x
    obtain ⟨hsp, hch, hhd, hlast⟩ := normalize_ws_props x
    conv_lhs => rw [normalize]
    rw [if_neg hy]
    rw [map_eq_self_of_fix (fun c hc => (hmem c hc).1)]
    rw [map_eq_self_of_fix (fun c hc => by
      unfold punctToSpace
      rw [if_neg (by simp [(hmem c hc).2])])]
    unfold collapseWS
    rw [collapse_eq_self _ hsp hch]
    exact strip_eq_self hhd hlast

/-- Lowercasing never produces an apostrophe from another character. -/
theorem lowerCh_ne_apos {c : Char} (h : c ≠ apostrophe) :
    lowerCh c ≠ apostrophe := by
  by_cases hr : 65 ≤ c.toNat ∧ c.toNat ≤ 90
  · intro he
    have ht := lowerCh_toNat hr
    rw [he] at ht
    have : apostrophe.toNat = 39 := by decide
    omega
  · rw [lowerCh_fix hr]
    exact h

/-- Lowercasing preserves the number of apostrophes. -/
theorem count_apos_map_lowerCh :
    ∀ l : List Char, (l.map lowerCh).count apostrophe = l.count apostrophe := by
  intro l
  induction l with
  | nil => rfl
  | cons x xs ih =>
    rw [List.map_cons, List.count_cons, List.count_cons, ih]
    by_cases hx : x = apostrophe
    · subst hx
      rw [show lowerCh apostrophe = apostrophe by decide]
    · rw [if_neg (by simpa using lowerCh_ne_apos hx),
        if_neg (by simpa using hx)]

/-- Punctuation substitution preserves the number of apostrophes. -/
theorem count_apos_map_punct :
    ∀ l : List Char,
      (l.map punctToSpace).count apostrophe = l.count apostrophe := by
  intro l
  induction l with
  | nil => rfl
  | cons x xs ih =>
    rw [List.map_cons, List.count_cons, List.count_cons, ih]
    by_cases hx : x = apostrophe
    · subst hx
      rw [show punctToSpace apostrophe = apostrophe by decide]
    · have hne : punctToSpace x ≠ apostrophe := by
        unfold punctToSpace
        by_cases hp : isPunctCh x = true
        · rw [if_pos hp]; decide
        · rw [if_neg hp]; exact hx
      rw [if_neg (by simpa using hne), if_neg (by simpa using hx)]

/-- Whitespace collapsing preserves the number of apostrophes (the
apostrophe is not a whitespace character). -/
theorem count_apos_collapseAux :
    ∀ (l : List Char) (b : Bool),
      (collapseAux b l).count apostrophe = l.count apostrophe := by
  intro l
  induction l with
  | nil => intro b; rw [collapseAux_nil]
  | cons x xs ih =>
    intro b
    by_cases hx : isSpaceCh x = true
    · have hxa : x ≠ apostrophe := by
        intro he
        rw [he] at hx
        exact absurd hx (by decide)
      cases b with
      | true =>
        rw [collapseAux_cons_space_true hx, ih true, List.count_cons,
          if_neg (by simpa using hxa)]
        omega
      | false =>
        rw [collapseAux_cons_space_false hx, List.count_cons, ih true,
          List.count_cons, if_neg (show ¬((' ' == apostrophe) = true) by decide),
          if_neg (by simpa using hxa)]
    · rw [collapseAux_cons_nonspace (by simpa using hx), List.count_cons,
        List.count_cons, ih false]

/-- Dropping leading whitespace preserves the number of apostrophes. -/
theorem count_apos_dropWhile (l : List Char) :
    (l.dropWhile isSpaceCh).count apostrophe = l.count apostrophe := by
  conv_rhs => rw [← List.takeWhile_append_dropWhile (p := isSpaceCh) (l := l)]
  rw [List.count_append]
  have hz : (l.takeWhile isSpaceCh).count apostrophe = 0 := by
    rw [List.count_eq_zero]
    intro hmem
    have := List.mem_takeWhile_imp hmem
    exact absurd this (by decide)
  omega

/-- Stripping preserves the number of apostrophes. -/
theorem count_apos_stripWS (l : List Char) :
    (stripWS l).count apostrophe = l.count apostrophe := by
  unfold stripWS stripEnd
  rw [List.count_reverse, count_apos_dropWhile, List.count_reverse,
    count_apos_dropWhile]

/-- C5: `normalize` removes every punctuation character except the
apostrophe — its output contains no punctuation character (the apostrophe is
not in the punctuation class), apostrophes are preserved exactly (same
count, so contractions keep theirs) — and the replacement is by a space, so
letters separated only by punctuation end up in separate words. -/
theorem normalize_punctuation :
    ∀ x : List Char,
      (∀ c ∈ normalize x, isPunctCh c = false) ∧
      (normalize x).count apostrophe = x.count apostrophe ∧
      isPunctCh apostrophe = false ∧
      (∀ c : Char, isPunctCh c = true → punctToSpace c = ' ') := by
  intro x
  refine ⟨fun c hc => (normalize_mem_lower_punct x c hc).2, ?_, by decide,
    fun c hc => by unfold punctToSpace; rw [if_pos hc]⟩
  by_cases hx : x = []
  · subst hx; rfl
  · unfold normalize
    rw [if_neg hx]
    unfold collapseWS
    rw [count_apos_stripWS, count_apos_collapseAux, count_apos_map_punct,
      count_apos_map_lowerCh]

/-- Witness for C5: the comma (code 44) is punctuation and is replaced by a
space; evaluated instance of the conditional conjunct. -/
theorem normalize_punctuation_witness :
    isPunctCh (Char.ofNat 44) = true ∧ punctToSpace (Char.ofNat 44) = ' ' :=
  ⟨by decide, (normalize_punctuation []).2.2.2 (Char.ofNat 44) (by decide)⟩

/-- LCS recurrence: empty first sequence. -/
theorem lcsLen_nil_left {α : Type} [DecidableEq α] (l : List α) :
    lcsLen [] l = 0 := by
  simp [lcsLen]

/-- LCS recurrence: empty second sequence. -/
theorem lcsLen_nil_right {α : Type} [DecidableEq α] (l : List α) :
    lcsLen l [] = 0 := by
  cases l <;> simp [lcsLen]

/-- LCS recurrence: both sequences nonempty. -/
theorem lcsLen_cons_cons {α : Type} [DecidableEq α] (a b : α) (as bs : List α) :
    lcsLen (a :: as) (b :: bs)
      = if a = b then lcsLen as bs + 1
        else max (lcsLen as (b :: bs)) (lcsLen (a :: as) bs) := by
  simp [lcsLen]

/-- LCS against a one-element sequence (right). -/
theorem lcsLen_single_right {α : Type} [DecidableEq α] :
    ∀ (w : List α) (b : α), lcsLen w [b] = if b ∈ w then 1 else 0 := by
  intro w
  induction w with
  | nil => intro b; rw [lcsLen_nil_left]; simp
  | cons a w' ih =>
    intro b
    rw [lcsLen_cons_cons]
    simp only [lcsLen_nil_right]
    rw [ih]
    by_cases hab : a = b
    · subst hab; simp
    · have hba : ¬(b = a) := fun h => hab h.symm
      rw [if_neg hab]
      simp [List.mem_cons, hba]

/-- LCS against a one-element sequence (left). -/
theorem lcsLen_single_left {α : Type} [DecidableEq α] :
    ∀ (w : List α) (a : α), lcsLen [a] w = if a ∈ w then 1 else 0 := by
  intro w
  induction w with
  | nil => intro a; rw [lcsLen_nil_right]; simp
  | cons b w' ih =>
    intro a
    rw [lcsLen_cons_cons]
    simp only [lcsLen_nil_left]
    rw [ih]
    by_cases hab : a = b
    · subst hab; simp
    · rw [if_neg hab]
      simp [List.mem_cons, hab]

/-- Suffix form of the LCS recurrence: appending one element to each
sequence satisfies exactly the `dp[i][j]` step of the source's table. -/
theorem lcsLen_append_singleton {α : Type} [DecidableEq α] :
    ∀ (u v : List α) (a b : α),
      lcsLen (u ++ [a]) (v ++ [b])
        = if a = b then lcsLen u v + 1
          else max (lcsLen u (v ++ [b])) (lcsLen (u ++ [a]) v) := by
  intro u
  induction u with
  | nil =>
    intro v a b
    simp only [List.nil_append, lcsLen_single_left, lcsLen_nil_left,
      List.mem_append, List.mem_singleton]
    by_cases hab : a = b
    · simp [hab]
    · by_cases hav : a ∈ v <;> simp [hab, hav]
  | cons x u' ihu =>
    intro v a b
    induction v with
    | nil =>
      simp only [List.nil_append, List.cons_append, lcsLen_single_right,
        lcsLen_nil_right, List.mem_cons, List.mem_append, List.mem_singleton]
      by_cases hab : a = b <;> by_cases hbx : b = x <;>
        by_cases hbu : b ∈ u' <;> simp_all [eq_comm]
    | cons y v' ihv =>
      have L0 := lcsLen_cons_cons x y (u' ++ [a]) (v' ++ [b])
      have R1 := lcsLen_cons_cons x y u' v'
      have R2 := lcsLen_cons_cons x y u' (v' ++ [b])
      have R3 := lcsLen_cons_cons x y (u' ++ [a]) v'
      have E1 := ihu v' a b
      have E2 := ihu (y :: v') a b
      have E3 := ihv
      simp only [List.cons_append] at E2 E3 ⊢
      rw [L0, R1, R2, R3, E1, E2, E3]
      by_cases hxy : x = y <;> by_cases hab : a = b <;>
        simp [hxy, hab] <;> omega

/-- Every `inits` list starts with the empty prefix. -/
theorem inits_head_nil {α : Type} (l : List α) : l.inits = [] :: l.inits.tail := by
  cases l with
  | nil => rfl
  | cons a l => rw [List.inits_cons]; rfl

/-- Correctness of the inner row loop: if the previous-row segment holds the
LCS values of `u` against the prefixes `v ++ w` (for `w` ranging over the
prefixes of the remaining reference suffix `bs`), and the entry to the left
holds `lcs (u ++ [a]) v`, the loop produces the corresponding segment of the
next row. -/
theorem lcsRowGo_spec :
    ∀ (bs u v : List String) (a : String),
      lcsRowGo a bs ((bs.inits).map (fun w => lcsLen u (v ++ w)))
          (lcsLen (u ++ [a]) v)
        = ((bs.inits).map (fun w => lcsLen (u ++ [a]) (v ++ w))).tail := by
  intro bs
  induction bs with
  | nil => intro u v a; rfl
  | cons b bs' ih =>
    intro u v a
    rw [List.inits_cons, List.map_cons, List.map_cons, List.map_map, List.map_map,
      List.tail_cons]
    show lcsRowGo a (b :: bs')
        (lcsLen u (v ++ []) :: List.map ((fun w => lcsLen u (v ++ w)) ∘ fun t => b :: t) bs'.inits)
        (lcsLen (u ++ [a]) v)
      = List.map ((fun w => lcsLen (u ++ [a]) (v ++ w)) ∘ fun t => b :: t) bs'.inits
    simp only [lcsRowGo, List.append_nil]
    have hcomp1 : ((fun w => lcsLen u (v ++ w)) ∘ fun t => b :: t)
        = (fun w => lcsLen u ((v ++ [b]) ++ w)) := by
      funext w
      simp only [Function.comp_apply]
      rw [List.append_cons v b w]
    have hcomp2 : ((fun w => lcsLen (u ++ [a]) (v ++ w)) ∘ fun t => b :: t)
        = (fun w => lcsLen (u ++ [a]) ((v ++ [b]) ++ w)) := by
      funext w
      simp only [Function.comp_apply]
      rw [List.append_cons v b w]
    rw [hcomp1, hcomp2]
    have hheadD : ((bs'.inits).map (fun w => lcsLen u ((v ++ [b]) ++ w))).headD 0
        = lcsLen u (v ++ [b]) := by
      conv_lhs => rw [inits_head_nil bs']
      rw [List.map_cons, List.headD_cons, List.append_nil]
    rw [hheadD]
    have hc : (if a = b then lcsLen u v + 1
          else lcsLen u (v ++ [b]) ⊔ lcsLen (u ++ [a]) v)
        = lcsLen (u ++ [a]) (v ++ [b]) := (lcsLen_append_singleton u v a b).symm
    rw [hc, ih u (v ++ [b]) a]
    conv_rhs => rw [inits_head_nil bs', List.map_cons]
    rw [List.append_nil, List.map_tail]

/-- Correctness of one outer-loop iteration: a full row of LCS values of `u`
against all prefixes of the reference becomes the row for `u ++ [a]`. -/
theorem lcsRowFn_spec (a : String) (s2 u : List String) :
    lcsRowFn a s2 ((s2.inits).map (fun w => lcsLen u w))
      = (s2.inits).map (fun w => lcsLen (u ++ [a]) w) := by
  have h2 := lcsRowGo_spec s2 u [] a
  rw [lcsLen_nil_right] at h2
  simp only [List.nil_append] at h2
  unfold lcsRowFn
  rw [h2]
  conv_rhs => rw [inits_head_nil s2, List.map_cons]
  rw [← List.map_tail]
  simp [lcsLen_nil_right]

/-- Correctness of the outer loop: folding the row update over the candidate
tokens turns the row for `u` into the row for `u ++ l`. -/
theorem foldl_lcsRow_spec (s2 : List String) :
    ∀ (l u : List String),
      List.foldl (fun prev a => lcsRowFn a s2 prev)
          ((s2.inits).map (fun w => lcsLen u w)) l
        = (s2.inits).map (fun w => lcsLen (u ++ l) w) := by
  intro l
  induction l with
  | nil => intro u; rw [List.foldl_nil, List.append_nil]
  | cons a l' ih =>
    intro u
    rw [List.foldl_cons, lcsRowFn_spec, ih (u ++ [a])]
    have he : (u ++ [a]) ++ l' = u ++ a :: l' := by simp
    rw [he]

/-- The all-zero initial row is the LCS row of the empty candidate prefix. -/
theorem replicate_eq_inits_map (s2 : List String) :
    List.replicate (s2.length + 1) 0
      = (s2.inits).map (fun w => lcsLen ([] : List String) w) := by
  have h : (s2.inits).map (fun w => lcsLen ([] : List String) w)
      = (s2.inits).map (fun _ => (0 : ℕ)) := by
    simp [lcsLen_nil_left]
  rw [h, List.map_const', List.length_inits]

/-- The last entry of a row indexed by the prefixes of `l` is the value at
`l` itself. -/
theorem getLastD_map_inits :
    ∀ (l : List String) (f : List String → ℕ),
      ((l.inits).map f).getLastD 0 = f l := by
  intro l
  induction l with
  | nil => intro f; rfl
  | cons a l' ih =>
    intro f
    rw [List.inits_cons, List.map_cons, List.getLastD_cons, List.map_map]
    have hne : (l'.inits).map (f ∘ fun t => a :: t) ≠ [] := by
      have hl : ((l'.inits).map (f ∘ fun t => a :: t)).length = l'.length + 1 := by
        rw [List.length_map, List.length_inits]
      intro hc
      rw [hc] at hl
      simp at hl
    have hdi : ∀ (d1 d2 : ℕ) (m : List ℕ), m ≠ [] →
        m.getLastD d1 = m.getLastD d2 := by
      intro d1 d2 m hm
      cases m with
      | nil => exact absurd rfl hm
      | cons x xs => rw [List.getLastD_cons, List.getLastD_cons]
    rw [hdi (f []) 0 _ hne]
    exact ih (f ∘ fun t => a :: t)

/-- The source's row-by-row DP table computes exactly the value of the
standard LCS recurrence. -/
theorem longest_common_subsequence_eq_lcsLen (seq1 seq2 : List String) :
    longest_common_subsequence seq1 seq2 = lcsLen seq1 seq2 := by
  unfold longest_common_subsequence
  rw [replicate_eq_inits_map seq2, foldl_lcsRow_spec seq2 seq1 [], List.nil_append,
    getLastD_map_inits seq2 (fun w => lcsLen seq1 w)]

/-- C6: for non-empty token sequences, `get_word_order_accuracy` returns the
LCS length — its DP table provably computes the standard recurrence
`lcsLen` with exact token equality — divided by the smaller sequence length,
times 100; if either sequence is empty it returns 0. -/
theorem order_accuracy_spec :
    ∀ (student_tokens reference_tokens : List String),
      (student_tokens ≠ [] → reference_tokens ≠ [] →
        get_word_order_accuracy student_tokens reference_tokens
          = (lcsLen student_tokens reference_tokens : ℚ)
              / (min student_tokens.length reference_tokens.length : ℚ) * 100) ∧
      ((student_tokens = [] ∨ reference_tokens = []) →
        get_word_order_accuracy student_tokens reference_tokens = 0) := by
  intro sts rts
  constructor
  · intro h1 h2
    unfold get_word_order_accuracy
    rw [if_neg (by simp [h1, h2])]
    have hmin : ¬(min sts.length rts.length = 0) := by
      have p1 := List.length_pos.mpr h1
      have p2 := List.length_pos.mpr h2
      omega
    simp only [if_neg hmin]
    rw [longest_common_subsequence_eq_lcsLen, Nat.cast_min]
  · intro h
    unfold get_word_order_accuracy
    rw [if_pos h]

/-- Witness for C6: the reversed two-word pair scores order accuracy 50
(LCS length 1 over minimum length 2). -/
theorem order_accuracy_spec_witness :
    ((["a", "b"] : List String) ≠ []) ∧ ((["b", "a"] : List String) ≠ []) ∧
    get_word_order_accuracy ["a", "b"] ["b", "a"]
      = (lcsLen (["a", "b"] : List String) ["b", "a"] : ℚ)
          / (min (["a", "b"] : List String).length (["b", "a"] : List String).length : ℚ)
          * 100 ∧
    get_word_order_accuracy ["a", "b"] ["b", "a"] = 50 := by
  have hl : lcsLen (["a", "b"] : List String) ["b", "a"] = 1 := by
    simp only [lcsLen]; decide
  refine ⟨by decide, by decide,
    (order_accuracy_spec ["a", "b"] ["b", "a"]).1 (by decide) (by decide), ?_⟩
  rw [(order_accuracy_spec ["a", "b"] ["b", "a"]).1 (by decide) (by decide), hl]
  norm_num

end ReadingModel
